import Mathlib

/-!
Verification of the reading-lamp text-to-speech pipeline (src/index.js).

Strings are modelled as lists of characters (`Str`).  The chunking
algorithm `chunkText`, the per-chunk retry loop `convertSingleChunk`,
the sequential multi-chunk pipeline, the ffmpeg-based merger
`mergeAudioFiles` and the top-level error dispatch are embedded as
executable Lean functions translated clause by clause from the source.
-/

/-- Character strings, modelled as lists of characters. -/
abbrev Str := List Char

/-- Maximum chunk size; `const MAX_CHUNK_SIZE = 4000` in src/index.js. -/
def MAX_CHUNK_SIZE : Nat := 4000

/-- Whitespace class used by the JavaScript regexp `\s` and by `trim`
(restricted to the ASCII whitespace characters). -/
def isWS (c : Char) : Bool :=
  c = ' ' || c = '\t' || c = '\n' || c = '\r' || c = '\x0b' || c = '\x0c'

/-- Sentence-ending punctuation of the split regexp `(?<=[.!?])\s+`. -/
def isPunct (c : Char) : Bool :=
  c = '.' || c = '!' || c = '?'

/-- Remove every whitespace character (used to state content preservation). -/
def strip (s : Str) : Str := s.filter (fun c => !isWS c)

/-- JavaScript `String.prototype.trim`: drop whitespace at both ends. -/
def trim (s : Str) : Str :=
  ((s.dropWhile isWS).reverse.dropWhile isWS).reverse

/-- JavaScript `sentence.split(' ')`: split on every single space character;
adjacent spaces yield empty pieces, and the result is never the empty list. -/
def splitOnSpace : Str → List Str
  | [] => [[]]
  | c :: rest =>
    if c = ' ' then [] :: splitOnSpace rest
    else (c :: (splitOnSpace rest).headI) :: (splitOnSpace rest).tail

/-- Head of the accumulator is the most recently consumed character; the
lookbehind `(?<=[.!?])` of the sentence-split regexp tests it. -/
def headIsPunct : Str → Bool
  | [] => false
  | p :: _ => isPunct p

/-- Scanner for `text.split(/(?<=[.!?])\s+/)`: a maximal whitespace run
immediately after `.`, `!` or `?` separates sentences and is discarded.
`acc` holds the characters of the current sentence in reverse order;
`skip` is true while the scanner is inside the whitespace run matched by
the greedy `\s+` (in that state `acc` is empty). -/
def sentScan : Str → Bool → Str → List Str
  | [], _, acc => [acc.reverse]
  | c :: rest, skip, acc =>
    if skip && isWS c then
      sentScan rest true acc
    else if isWS c && headIsPunct acc then
      acc.reverse :: sentScan rest true []
    else
      sentScan rest false (c :: acc)

/-- `text.split(/(?<=[.!?])\s+/)` from src/index.js line 226. -/
def splitSentences (s : Str) : List Str := sentScan s false []

/-- Inner word loop of `chunkText` (src/index.js lines 239-252), processing
the words of an over-long sentence.  Returns the chunk list and the pending
`wordChunk` accumulator. -/
def wordLoop : List Str → Str → List Str → List Str × Str
  | [], wc, ch => (ch, wc)
  | w :: ws, wc, ch =>
    if (wc ++ ' ' :: w).length > MAX_CHUNK_SIZE then
      if wc ≠ [] then
        wordLoop ws w (ch ++ [trim wc])
      else
        wordLoop ws (w.drop MAX_CHUNK_SIZE) (ch ++ [w.take MAX_CHUNK_SIZE])
    else
      wordLoop ws (if wc ≠ [] then wc ++ ' ' :: w else w) ch

/-- Outer sentence loop of `chunkText` (src/index.js lines 228-268).
In the long-sentence branch the source resets `currentChunk` to the empty
string before the word loop and afterwards runs
`if (wordChunk) currentChunk = wordChunk`, which leaves `currentChunk`
equal to `wordChunk` in both cases. -/
def sentLoop : List Str → Str → List Str → List Str × Str
  | [], cc, ch => (ch, cc)
  | s :: ss, cc, ch =>
    if s.length > MAX_CHUNK_SIZE then
      let flushed := if cc ≠ [] then ch ++ [trim cc] else ch
      let r := wordLoop (splitOnSpace s) [] flushed
      sentLoop ss r.2 r.1
    else if (cc ++ ' ' :: s).length > MAX_CHUNK_SIZE then
      sentLoop ss s (if cc ≠ [] then ch ++ [trim cc] else ch)
    else
      sentLoop ss (if cc ≠ [] then cc ++ ' ' :: s else s) ch

/-- `chunkText` from src/index.js lines 217-275. -/
def chunkText (text : Str) : List Str :=
  if text.length ≤ MAX_CHUNK_SIZE then [text]
  else
    let r := sentLoop (splitSentences text) [] []
    let chunks := if r.2 ≠ [] then r.1 ++ [trim r.2] else r.1
    chunks.filter (fun c => c.length > 0)

/-- Split on arbitrary whitespace (used only to state the word-reconstruction
property of the specification). -/
def splitWS : Str → List Str
  | [] => [[]]
  | c :: rest =>
    if isWS c then [] :: splitWS rest
    else (c :: (splitWS rest).headI) :: (splitWS rest).tail

/-- Whitespace-separated words of a string, as the specification uses the
term: maximal runs of non-whitespace characters. -/
def wordsOf (s : Str) : List Str := (splitWS s).filter (fun w => w ≠ [])

/-! ### Whitespace-stripping lemmas -/

theorem strip_append (a b : Str) : strip (a ++ b) = strip a ++ strip b :=
  List.filter_append ..

theorem strip_cons (c : Char) (s : Str) :
    strip (c :: s) = if isWS c then strip s else c :: strip s := by
  simp only [strip, List.filter_cons]
  cases h : isWS c <;> simp [h]

theorem strip_reverse (s : Str) : strip s.reverse = (strip s).reverse := by
  simp [strip, List.filter_reverse]

theorem strip_dropWhile (s : Str) : strip (s.dropWhile isWS) = strip s := by
  induction s with
  | nil => rfl
  | cons c rest ih =>
    rw [List.dropWhile_cons]
    by_cases h : isWS c = true
    · rw [if_pos h, ih, strip_cons, if_pos h]
    · rw [if_neg h]

theorem strip_trim (s : Str) : strip (trim s) = strip s := by
  unfold trim
  rw [strip_reverse, strip_dropWhile, strip_reverse, List.reverse_reverse,
    strip_dropWhile]

theorem cons_headI_tail {α : Type} [Inhabited α] {l : List α} (h : l ≠ []) :
    l.headI :: l.tail = l := by
  cases l with
  | nil => exact absurd rfl h
  | cons a t => rfl

theorem splitOnSpace_ne_nil (s : Str) : splitOnSpace s ≠ [] := by
  cases s with
  | nil => simp [splitOnSpace]
  | cons c rest =>
    by_cases h : c = ' ' <;> simp [splitOnSpace, h]

theorem strip_flatten_splitOnSpace (s : Str) :
    strip (splitOnSpace s).flatten = strip s := by
  induction s with
  | nil => rfl
  | cons c rest ih =>
    by_cases h : c = ' '
    · rw [splitOnSpace, if_pos h, List.flatten_cons, List.nil_append, ih, h,
        strip_cons]
      simp [isWS]
    · rw [splitOnSpace, if_neg h]
      have hne := splitOnSpace_ne_nil rest
      have hflat : (((c :: (splitOnSpace rest).headI) ::
          (splitOnSpace rest).tail)).flatten
          = c :: (splitOnSpace rest).flatten := by
        conv_rhs => rw [← cons_headI_tail hne]
        simp [List.flatten_cons]
      rw [hflat, strip_cons, strip_cons, ih]

theorem strip_flatten_sentScan (s : Str) :
    ∀ (skip : Bool) (acc : Str),
      strip (sentScan s skip acc).flatten = strip acc.reverse ++ strip s := by
  induction s with
  | nil => intro skip acc; simp [sentScan, strip]
  | cons c rest ih =>
    intro skip acc
    rw [sentScan]
    by_cases h1 : (skip && isWS c) = true
    · rw [if_pos h1, ih, strip_cons, if_pos ((Bool.and_eq_true ..).mp h1).2]
    · rw [if_neg h1]
      by_cases h2 : (isWS c && headIsPunct acc) = true
      · rw [if_pos h2, List.flatten_cons, strip_append, ih true [],
          strip_cons, if_pos ((Bool.and_eq_true ..).mp h2).1]
        simp [strip]
      · rw [if_neg h2, ih, List.reverse_cons, strip_append, strip_cons]
        cases hw : isWS c <;> simp [hw, strip]

theorem strip_flatten_splitSentences (s : Str) :
    strip (splitSentences s).flatten = strip s := by
  unfold splitSentences
  rw [strip_flatten_sentScan]
  rfl

theorem strip_space_cons (w : Str) : strip (' ' :: w) = strip w := by
  rw [strip_cons]
  simp [isWS]

theorem strip_nil : strip [] = [] := rfl

theorem wordLoop_strip (ws : List Str) :
    ∀ (wc : Str) (ch : List Str),
      strip (wordLoop ws wc ch).1.flatten ++ strip (wordLoop ws wc ch).2
        = strip ch.flatten ++ strip wc ++ strip ws.flatten := by
  induction ws with
  | nil => intro wc ch; simp [wordLoop, strip_nil]
  | cons w rest ih =>
    intro wc ch
    rw [wordLoop]
    by_cases hlen : (wc ++ ' ' :: w).length > MAX_CHUNK_SIZE
    · rw [if_pos hlen]
      by_cases hwc : wc = []
      · rw [if_neg (not_not_intro hwc), ih]
        subst hwc
        have htd : strip (w.take MAX_CHUNK_SIZE) ++ strip (w.drop MAX_CHUNK_SIZE)
            = strip w := by rw [← strip_append, List.take_append_drop]
        simp only [List.flatten_append, List.flatten_cons, List.flatten_nil,
          strip_append, strip_nil, List.append_nil, List.nil_append]
        simp only [← htd, List.append_assoc]
      · rw [if_pos hwc, ih]
        simp only [List.flatten_append, List.flatten_cons, List.flatten_nil,
          strip_append, strip_trim, strip_nil, List.append_nil, List.nil_append,
          List.append_assoc]
    · rw [if_neg hlen]
      by_cases hwc : wc = []
      · rw [if_neg (not_not_intro hwc), ih]
        subst hwc
        simp only [List.flatten_cons, strip_append, strip_nil, List.nil_append,
          List.append_assoc]
      · rw [if_pos hwc, ih, strip_append, strip_space_cons]
        simp only [List.flatten_cons, strip_append, List.append_assoc]

theorem sentLoop_strip (ss : List Str) :
    ∀ (cc : Str) (ch : List Str),
      strip (sentLoop ss cc ch).1.flatten ++ strip (sentLoop ss cc ch).2
        = strip ch.flatten ++ strip cc ++ strip ss.flatten := by
  induction ss with
  | nil => intro cc ch; simp [sentLoop, strip_nil]
  | cons s rest ih =>
    intro cc ch
    rw [sentLoop]
    by_cases hlong : s.length > MAX_CHUNK_SIZE
    · rw [if_pos hlong]
      by_cases hcc : cc = []
      · rw [if_neg (not_not_intro hcc), ih, wordLoop_strip,
          strip_flatten_splitOnSpace]
        subst hcc
        simp only [List.flatten_cons, strip_append, strip_nil, List.nil_append,
          List.append_nil, List.append_assoc]
      · rw [if_pos hcc, ih, wordLoop_strip, strip_flatten_splitOnSpace]
        simp only [List.flatten_append, List.flatten_cons, List.flatten_nil,
          strip_append, strip_trim, strip_nil, List.nil_append, List.append_nil,
          List.append_assoc]
    · rw [if_neg hlong]
      by_cases hfit : (cc ++ ' ' :: s).length > MAX_CHUNK_SIZE
      · rw [if_pos hfit]
        by_cases hcc : cc = []
        · rw [if_neg (not_not_intro hcc), ih]
          subst hcc
          simp only [List.flatten_cons, strip_append, strip_nil, List.nil_append,
            List.append_assoc]
        · rw [if_pos hcc, ih]
          simp only [List.flatten_append, List.flatten_cons, List.flatten_nil,
            strip_append, strip_trim, strip_nil, List.nil_append, List.append_nil,
            List.append_assoc]
      · rw [if_neg hfit]
        by_cases hcc : cc = []
        · rw [if_neg (not_not_intro hcc), ih]
          subst hcc
          simp only [List.flatten_cons, strip_append, strip_nil, List.nil_append,
            List.append_assoc]
        · rw [if_pos hcc, ih, strip_append, strip_space_cons]
          simp only [List.flatten_cons, strip_append, List.append_assoc]
theorem flatten_filter_pos (L : List Str) :
    (L.filter (fun c => c.length > 0)).flatten = L.flatten := by
  induction L with
  | nil => rfl
  | cons x xs ih =>
    by_cases h : x.length > 0
    · rw [List.filter_cons_of_pos (by simpa using h), List.flatten_cons,
        List.flatten_cons, ih]
    · have hx : x = [] := List.eq_nil_of_length_eq_zero (Nat.eq_zero_of_not_pos h)
      rw [List.filter_cons_of_neg (by simpa using h), ih, List.flatten_cons, hx,
        List.nil_append]
example : chunkText "hi".toList = ["hi".toList] := by decide
example : splitSentences "a. b! c".toList = ["a.".toList, "b!".toList, "c".toList] := by decide
example : splitSentences "a. ? b".toList = ["a.".toList, "?".toList, "b".toList] := by decide
example : splitOnSpace "a  b".toList = ["a".toList, [], "b".toList] := by decide
example : wordsOf "  a  b ".toList = ["a".toList, "b".toList] := by decide

/-- Claim C2 (amended): the chunker loses no content — concatenating the
returned chunks in order preserves exactly the non-whitespace characters
of the input, in order. -/
theorem chunkText_preserves_content (t : Str) :
    strip (chunkText t).flatten = strip t := by
  rw [chunkText]
  by_cases h : t.length ≤ MAX_CHUNK_SIZE
  · rw [if_pos h]
    simp [strip]
  · rw [if_neg h]
    rw [flatten_filter_pos]
    have hmain := sentLoop_strip (splitSentences t) [] []
    rw [strip_flatten_splitSentences] at hmain
    simp only [List.flatten_nil, strip_nil, List.nil_append] at hmain
    by_cases hr : (sentLoop (splitSentences t) [] []).2 = []
    · rw [if_neg (not_not_intro hr)]
      rw [hr, strip_nil, List.append_nil] at hmain
      exact hmain
    · rw [if_pos hr]
      simp only [List.flatten_append, List.flatten_cons, List.flatten_nil,
        strip_append, strip_trim, List.append_nil]
      exact hmain

/-! ### Symbolic evaluation on whitespace-free input -/

theorem sentScan_wsFree (s : Str) :
    ∀ (skip : Bool) (acc : Str), (∀ c ∈ s, isWS c = false) →
      sentScan s skip acc = [acc.reverse ++ s] := by
  induction s with
  | nil => intro skip acc _; simp [sentScan]
  | cons c rest ih =>
    intro skip acc h
    have hc : isWS c = false := h c (List.mem_cons_self ..)
    rw [sentScan]
    rw [if_neg (by simp [hc]), if_neg (by simp [hc])]
    rw [ih false (c :: acc) (fun x hx => h x (List.mem_cons_of_mem _ hx))]
    simp

theorem splitSentences_wsFree (s : Str) (h : ∀ c ∈ s, isWS c = false) :
    splitSentences s = [s] := by
  unfold splitSentences
  rw [sentScan_wsFree s false [] h]
  rfl

theorem splitOnSpace_wsFree (s : Str) (h : ∀ c ∈ s, isWS c = false) :
    splitOnSpace s = [s] := by
  induction s with
  | nil => rfl
  | cons c rest ih =>
    have hc : isWS c = false := h c (List.mem_cons_self ..)
    have hcs : ¬ c = ' ' := by
      intro he; subst he; simp [isWS] at hc
    rw [splitOnSpace, if_neg hcs,
      ih (fun x hx => h x (List.mem_cons_of_mem _ hx))]
    rfl

theorem dropWhile_wsFree (s : Str) (h : ∀ c ∈ s, isWS c = false) :
    s.dropWhile isWS = s := by
  cases s with
  | nil => rfl
  | cons c rest =>
    rw [List.dropWhile_cons, if_neg]
    simp [h c (List.mem_cons_self ..)]

theorem trim_wsFree (s : Str) (h : ∀ c ∈ s, isWS c = false) : trim s = s := by
  unfold trim
  rw [dropWhile_wsFree s h, dropWhile_wsFree s.reverse
    (fun c hc => h c (List.mem_reverse.mp hc)), List.reverse_reverse]

/-- On whitespace-free input longer than the limit, `chunkText` emits the
first `MAX_CHUNK_SIZE` characters and then the whole remainder as a second
chunk, without splitting the remainder further. -/
theorem chunkText_wsFree (t : Str) (h : ∀ c ∈ t, isWS c = false)
    (hlen : MAX_CHUNK_SIZE < t.length) :
    chunkText t = [t.take MAX_CHUNK_SIZE, t.drop MAX_CHUNK_SIZE] := by
  rw [chunkText, if_neg (by omega), splitSentences_wsFree t h]
  have hdrop : t.drop MAX_CHUNK_SIZE ≠ [] := by
    intro he
    have := List.drop_eq_nil_iff.mp he
    omega
  have hsl : sentLoop [t] [] [] = ([t.take MAX_CHUNK_SIZE], t.drop MAX_CHUNK_SIZE) := by
    rw [sentLoop, if_pos (by omega)]
    simp only [ne_eq, not_true_eq_false, if_false, reduceIte]
    rw [splitOnSpace_wsFree t h]
    rw [wordLoop, if_pos (by simp; omega), if_neg (by simp)]
    rw [wordLoop]
    rfl
  rw [hsl]
  simp only [hdrop, ne_eq, not_false_eq_true, if_true, reduceIte]
  rw [trim_wsFree _ (fun c hc => h c (List.mem_of_mem_drop hc))]
  have h1 : (t.take MAX_CHUNK_SIZE).length > 0 := by
    rw [List.length_take]
    exact Nat.lt_min.mpr ⟨by norm_num [MAX_CHUNK_SIZE],
      Nat.lt_of_le_of_lt (Nat.zero_le _) hlen⟩
  have h2 : (t.drop MAX_CHUNK_SIZE).length > 0 := by
    rw [List.length_drop]
    exact Nat.sub_pos_of_lt hlen
  simp only [List.singleton_append]
  rw [List.filter_cons_of_pos (by simpa using h1),
    List.filter_cons_of_pos (by simpa using h2)]
  rfl

theorem splitWS_ne_nil (s : Str) : splitWS s ≠ [] := by
  cases s with
  | nil => simp [splitWS]
  | cons c rest =>
    by_cases h : isWS c = true <;> simp [splitWS, h]

theorem splitWS_wsFree (s : Str) (h : ∀ c ∈ s, isWS c = false) :
    splitWS s = [s] := by
  induction s with
  | nil => rfl
  | cons c rest ih =>
    have hc : isWS c = false := h c (List.mem_cons_self ..)
    rw [splitWS, if_neg (by simp [hc]),
      ih (fun x hx => h x (List.mem_cons_of_mem _ hx))]
    rfl

theorem splitWS_append_wsFree (x : Str) (s : Str)
    (h : ∀ c ∈ x, isWS c = false) :
    splitWS (x ++ s) = (x ++ (splitWS s).headI) :: (splitWS s).tail := by
  induction x with
  | nil =>
    simp only [List.nil_append]
    exact (cons_headI_tail (splitWS_ne_nil s)).symm
  | cons c x ih =>
    have hc : isWS c = false := h c (List.mem_cons_self ..)
    rw [List.cons_append, splitWS, if_neg (by simp [hc]),
      ih (fun y hy => h y (List.mem_cons_of_mem _ hy))]
    simp

theorem intercalate_pair (s a b : Str) :
    List.intercalate s [a, b] = a ++ s ++ b := by
  simp [List.intercalate, List.intersperse]

/-- The length of a literal replicate, stated so no tactic needs to expand
the replicated list itself. -/
theorem length_replicate_eq (n : Nat) (c : Char) :
    (List.replicate n c).length = n := List.length_replicate ..

theorem replicate_ne_nil_of_pos {n : Nat} (c : Char) (h : 0 < n) :
    List.replicate n c ≠ [] := by
  intro he
  have hl := congrArg List.length he
  rw [length_replicate_eq, List.length_nil] at hl
  omega

theorem replicate_wsFree (n : Nat) : ∀ c ∈ List.replicate n 'a', isWS c = false := by
  intro c hc
  rw [List.eq_of_mem_replicate hc]
  rfl

theorem filter_ne_nil_id (L : List Str) (h : ∀ w ∈ L, w ≠ []) :
    L.filter (fun w => w ≠ []) = L := by
  induction L with
  | nil => rfl
  | cons x xs ih =>
    rw [List.filter_cons, if_pos]
    · rw [ih (fun w hw => h w (List.mem_cons_of_mem _ hw))]
    · simp only [decide_eq_true_eq]
      exact h x (List.mem_cons_self ..)

/-- Claim C1 evaluated at the failing input: for a single 8001-character
word, `chunkText` force-splits only once and then carries the whole
4001-character remainder as the final chunk, which exceeds
`MAX_CHUNK_SIZE` — contradicting both the bound and the
"successive fixed-size fragments" description. -/
theorem chunkText_oversized_chunk_on_long_word :
    chunkText (List.replicate 8001 'a') =
      [List.replicate 4000 'a', List.replicate 4001 'a'] ∧
    MAX_CHUNK_SIZE < (List.replicate 4001 'a').length := by
  constructor
  · rw [chunkText_wsFree _ (replicate_wsFree 8001)
      (by rw [length_replicate_eq]; norm_num [MAX_CHUNK_SIZE])]
    rw [List.take_replicate, List.drop_replicate]
    rw [show min MAX_CHUNK_SIZE 8001 = 4000 from by norm_num [MAX_CHUNK_SIZE]]
    rw [show 8001 - MAX_CHUNK_SIZE = 4001 from by norm_num [MAX_CHUNK_SIZE]]
  · rw [length_replicate_eq]
    norm_num [MAX_CHUNK_SIZE]

/-- Claim C2 as stated fails: for the 4001-character single word, joining
the chunks with single spaces reinserted yields two words, not the
original single word. -/
theorem chunkText_space_reinsertion_splits_long_word :
    wordsOf (List.intercalate [' '] (chunkText (List.replicate 4001 'a')))
      ≠ wordsOf (List.replicate 4001 'a') := by
  have hchunk : chunkText (List.replicate 4001 'a') =
      [List.replicate 4000 'a', List.replicate 1 'a'] := by
    rw [chunkText_wsFree _ (replicate_wsFree 4001)
      (by rw [length_replicate_eq]; norm_num [MAX_CHUNK_SIZE])]
    rw [List.take_replicate, List.drop_replicate]
    rw [show min MAX_CHUNK_SIZE 4001 = 4000 from by norm_num [MAX_CHUNK_SIZE]]
    rw [show 4001 - MAX_CHUNK_SIZE = 1 from by norm_num [MAX_CHUNK_SIZE]]
  rw [hchunk, intercalate_pair]
  have hleft : wordsOf (List.replicate 4000 'a' ++ [' '] ++ List.replicate 1 'a')
      = [List.replicate 4000 'a', List.replicate 1 'a'] := by
    rw [List.append_assoc, wordsOf,
      splitWS_append_wsFree _ _ (replicate_wsFree 4000)]
    have h1 : splitWS ([' '] ++ List.replicate 1 'a') =
        [] :: splitWS (List.replicate 1 'a') := by
      rw [List.singleton_append, splitWS,
        if_pos (show isWS ' ' = true from rfl)]
    rw [h1, splitWS_wsFree (List.replicate 1 'a') (replicate_wsFree 1)]
    show List.filter _ [List.replicate 4000 'a' ++ [], List.replicate 1 'a'] = _
    rw [List.append_nil]
    apply filter_ne_nil_id
    intro w hw
    rcases List.mem_cons.mp hw with rfl | hw2
    · exact replicate_ne_nil_of_pos 'a' (by norm_num)
    · rcases List.mem_cons.mp hw2 with rfl | hw3
      · exact replicate_ne_nil_of_pos 'a' (by norm_num)
      · exact absurd hw3 (List.not_mem_nil _)
  rw [hleft, wordsOf, splitWS_wsFree _ (replicate_wsFree 4001)]
  rw [filter_ne_nil_id [List.replicate 4001 'a'] (by
    intro w hw
    rcases List.mem_cons.mp hw with rfl | hw2
    · exact replicate_ne_nil_of_pos 'a' (by norm_num)
    · exact absurd hw2 (List.not_mem_nil _))]
  intro hcontra
  have hl := congrArg List.length hcontra
  rw [List.length_cons, List.length_cons, List.length_cons] at hl
  simp at hl

/-- One scanner step on a character that neither continues a skipped
whitespace run nor ends a sentence. -/
theorem sentScan_cons_other (c : Char) (rest : Str) (skip : Bool) (acc : Str)
    (h1 : ¬(skip && isWS c) = true) (h2 : ¬(isWS c && headIsPunct acc) = true) :
    sentScan (c :: rest) skip acc = sentScan rest false (c :: acc) := by
  rw [sentScan, if_neg h1, if_neg h2]

/-- One scanner step on whitespace following sentence punctuation. -/
theorem sentScan_cons_split (c : Char) (rest : Str) (skip : Bool) (acc : Str)
    (h1 : ¬(skip && isWS c) = true) (h2 : (isWS c && headIsPunct acc) = true) :
    sentScan (c :: rest) skip acc = acc.reverse :: sentScan rest true [] := by
  rw [sentScan, if_neg h1, if_pos h2]

/-- Inside the whitespace run matched by the greedy `\s+`, the scanner
discards every space. -/
theorem sentScan_skip_spaces (k : Nat) (rest : Str) (acc : Str) :
    sentScan (List.replicate k ' ' ++ rest) true acc
      = sentScan rest true acc := by
  induction k with
  | zero => rfl
  | succ n ih =>
    rw [show List.replicate (n + 1) ' ' = ' ' :: List.replicate n ' ' from rfl,
      List.cons_append, sentScan]
    rw [if_pos (show (true && isWS ' ') = true from rfl)]
    exact ih

/-- Claim C3 (amended): a text within the limit is returned verbatim as the
single chunk (not trimmed), and a whitespace-free text of exactly
`MAX_CHUNK_SIZE + 1` characters is split into exactly two chunks: the first
`MAX_CHUNK_SIZE` characters and the one-character remainder. -/
theorem chunkText_small_input_and_boundary (t1 t2 : Str)
    (h1 : t1.length ≤ MAX_CHUNK_SIZE)
    (h2 : t2.length = MAX_CHUNK_SIZE + 1)
    (h3 : ∀ c ∈ t2, isWS c = false) :
    chunkText t1 = [t1] ∧
    chunkText t2 = [t2.take MAX_CHUNK_SIZE, t2.drop MAX_CHUNK_SIZE] := by
  constructor
  · rw [chunkText, if_pos h1]
  · exact chunkText_wsFree t2 h3 (by omega)

theorem chunkText_small_input_and_boundary_witness :
    chunkText "hi".toList = ["hi".toList] ∧
    chunkText (List.replicate 4001 'a') =
      [(List.replicate 4001 'a').take MAX_CHUNK_SIZE,
        (List.replicate 4001 'a').drop MAX_CHUNK_SIZE] :=
  chunkText_small_input_and_boundary "hi".toList (List.replicate 4001 'a')
    (by decide)
    (by rw [length_replicate_eq]; rfl)
    (replicate_wsFree 4001)

/-- Claim C3 as stated fails twice on the code: the single-chunk fast path
returns the text unchanged, not trimmed; and a text of exactly
`MAX_CHUNK_SIZE + 1` characters can collapse to a single chunk when
whitespace is discarded, instead of yielding at least two. -/
theorem chunkText_fast_path_untrimmed_and_boundary_collapse :
    (chunkText [' ', 'a'] = [[' ', 'a']] ∧
      [' ', 'a'].length ≤ MAX_CHUNK_SIZE ∧
      chunkText [' ', 'a'] ≠ [trim [' ', 'a']]) ∧
    (("a.".toList ++ List.replicate 3998 ' ' ++ ['b']).length
        = MAX_CHUNK_SIZE + 1 ∧
      (chunkText ("a.".toList ++ List.replicate 3998 ' ' ++ ['b'])).length
        = 1) := by
  refine ⟨⟨by decide, by decide, by decide⟩, ?_, ?_⟩
  · rw [List.length_append, List.length_append, length_replicate_eq]
    norm_num [MAX_CHUNK_SIZE]
  · have hlen : ("a.".toList ++ List.replicate 3998 ' ' ++ ['b']).length
        = 4001 := by
      rw [List.length_append, List.length_append, length_replicate_eq]
      norm_num
    have hsent : splitSentences ("a.".toList ++ List.replicate 3998 ' ' ++ ['b'])
        = [['a', '.'], ['b']] := by
      show sentScan ('a' :: '.' :: (List.replicate 3998 ' ' ++ ['b'])) false []
        = [['a', '.'], ['b']]
      have e1 : List.replicate 3998 ' ' ++ ['b']
          = ' ' :: (List.replicate 3997 ' ' ++ ['b']) := by
        rw [show List.replicate 3998 ' ' = ' ' :: List.replicate 3997 ' '
          from rfl, List.cons_append]
      rw [sentScan_cons_other 'a' _ false [] (by decide) (by decide),
        sentScan_cons_other '.' _ false ['a'] (by decide) (by decide), e1,
        sentScan_cons_split ' ' _ false ['.', 'a'] (by decide) (by decide),
        sentScan_skip_spaces 3997 ['b'] [],
        sentScan_cons_other 'b' _ true [] (by decide) (by decide)]
      rfl
    rw [chunkText, if_neg (by rw [hlen]; norm_num [MAX_CHUNK_SIZE]), hsent]
    decide

/-- If a string has no non-whitespace character, trimming it gives the
empty string. -/
theorem trim_eq_nil_of_strip_eq_nil (t : Str) (h : strip t = []) :
    trim t = [] := by
  have hall : ∀ c ∈ t, isWS c = true := by
    intro c hc
    have := List.filter_eq_nil_iff.mp h c hc
    simpa using this
  unfold trim
  rw [List.dropWhile_eq_nil_iff.mpr (fun x hx => hall x hx)]
  rfl

/-- Claim C4: for input that is non-blank (non-empty after trimming — the
caller rejects blank input), the chunker returns a non-empty sequence, and
every chunk in it is a non-empty string. -/
theorem chunkText_nonempty_of_nonblank (t : Str) (h : trim t ≠ []) :
    chunkText t ≠ [] ∧ ∀ c ∈ chunkText t, c ≠ [] := by
  have htne : t ≠ [] := by
    intro he
    subst he
    exact h rfl
  constructor
  · intro he
    have hs := chunkText_preserves_content t
    rw [he] at hs
    exact h (trim_eq_nil_of_strip_eq_nil t hs.symm)
  · intro c hc
    rw [chunkText] at hc
    by_cases hsmall : t.length ≤ MAX_CHUNK_SIZE
    · rw [if_pos hsmall] at hc
      rcases List.mem_cons.mp hc with rfl | h2
      · exact htne
      · exact absurd h2 (List.not_mem_nil _)
    · rw [if_neg hsmall] at hc
      have hmem := List.mem_filter.mp hc
      intro he
      rw [he] at hmem
      simp at hmem

theorem chunkText_nonempty_of_nonblank_witness :
    chunkText ['h', 'i'] ≠ [] ∧ ∀ c ∈ chunkText ['h', 'i'], c ≠ [] :=
  chunkText_nonempty_of_nonblank ['h', 'i'] (by decide)

/-! ### Pipeline embedding: errors, retry, sequencing, merge -/

/-- A JavaScript `Error` as the pipeline observes it: an optional `code`
property and a `message`. -/
structure JsError where
  code : Option String
  message : String
deriving DecidableEq

/-- Character-list prefix test. -/
def prefixCheck : Str → Str → Bool
  | [], _ => true
  | _ :: _, [] => false
  | a :: as, b :: bs => a = b && prefixCheck as bs

/-- Character-list contiguous-substring test. -/
def infixCheck (sub : Str) : Str → Bool
  | [] => prefixCheck sub []
  | c :: rest => prefixCheck sub (c :: rest) || infixCheck sub rest

/-- JavaScript `message.includes(sub)`. -/
def containsSubstr (s sub : String) : Bool :=
  infixCheck sub.toList s.toList

/-- Top-level error dispatch in the `catch` of `convertTextToSpeech`
(src/index.js lines 394-408): credential and quota codes first, then the
rate-limit message test, then the ffmpeg rethrow, then the generic wrap. -/
def dispatchError (e : JsError) : JsError :=
  if e.code = some "invalid_api_key" then
    ⟨none, "Invalid OpenAI API key"⟩
  else if e.code = some "insufficient_quota" then
    ⟨none, "OpenAI API quota exceeded"⟩
  else if containsSubstr e.message "rate limit" then
    ⟨none, "OpenAI API rate limit exceeded. Please try again later."⟩
  else if containsSubstr e.message "ffmpeg" then
    e
  else
    ⟨none, "OpenAI API error: " ++ e.message⟩

/-- Outcome of one call to the external speech-synthesis service. -/
inductive ApiOutcome where
  | success : ApiOutcome
  | failure : JsError → ApiOutcome
deriving DecidableEq

/-- The configuration fields the conversion pipeline reads. -/
structure Config where
  output : String
  audioFormat : String
deriving DecidableEq

/-- Temporary fragment path written by `convertSingleChunk`:
`output_chunk_INDEX.FORMAT`. -/
def tempPath (cfg : Config) (i : Nat) : String :=
  cfg.output ++ "_chunk_" ++ toString i ++ "." ++ cfg.audioFormat

/-- Final output path `output.FORMAT`. -/
def outputPath (cfg : Config) : String :=
  cfg.output ++ "." ++ cfg.audioFormat

/-- Observable actions of the conversion pipeline, in execution order. -/
inductive Event where
  | apiCall (input : Str) (chunkIndex attempt : Nat)
  | sleep (ms : Nat)
  | writeFile (path : String)
  | mergeCall (fragmentPaths : List String) (outPath : String)
deriving DecidableEq

/-- True exactly for synthesis-service calls. -/
def isApiCall : Event → Bool
  | .apiCall .. => true
  | _ => false

/-- Retry loop of `convertSingleChunk` (src/index.js lines 284-309).
`remaining` counts loop iterations left (`maxRetries - attempt + 1`),
`attempt` is the 1-based attempt counter, `last` is `lastError`.  On
success the fragment is written to the chunk-indexed temp path; on failure
with attempts remaining (`attempt < maxRetries`, i.e. `remaining > 1`) the
code sleeps `1000 * attempt` ms; when the loop ends, `lastError` is
thrown (`.error last`).  The second component is the event trace. -/
def retryLoop (oracle : Nat → Nat → ApiOutcome) (cfg : Config) (text : Str)
    (ci : Nat) : Nat → Nat → Option JsError →
      Except (Option JsError) Unit × List Event
  | 0, _, last => (.error last, [])
  | r + 1, attempt, _ =>
    match oracle ci attempt with
    | .success =>
      (.ok (), [.apiCall text ci attempt, .writeFile (tempPath cfg ci)])
    | .failure e =>
      let rest := retryLoop oracle cfg text ci r (attempt + 1) (some e)
      (rest.1, .apiCall text ci attempt ::
        ((if r > 0 then [Event.sleep (1000 * attempt)] else []) ++ rest.2))

/-- `convertSingleChunk(openai, config, text, chunkIndex, maxRetries)`;
the source always uses the default `maxRetries = 3`. -/
def convertSingleChunk (oracle : Nat → Nat → ApiOutcome) (cfg : Config)
    (text : Str) (ci : Nat) (maxRetries : Nat) :
    Except (Option JsError) Unit × List Event :=
  retryLoop oracle cfg text ci maxRetries 1 none

/-- Multi-chunk loop of `convertTextToSpeech` (src/index.js lines 367-377):
chunk `i` (0-based) is converted as 1-based chunk `i + 1`; after a
successful conversion that is not the last (`i < n - 1`) the code sleeps
1000 ms; fragment paths are collected in order; a chunk failure aborts the
loop immediately.  Returns result, collected fragment paths, and trace. -/
def chunkLoop (oracle : Nat → Nat → ApiOutcome) (cfg : Config) (n : Nat) :
    List Str → Nat →
      Except (Option JsError) Unit × List String × List Event
  | [], _ => (.ok (), [], [])
  | c :: rest, i =>
    let conv := convertSingleChunk oracle cfg c (i + 1) 3
    match conv.1 with
    | .error e => (.error e, [], conv.2)
    | .ok _ =>
      let pace := if i < n - 1 then [Event.sleep 1000] else []
      let next := chunkLoop oracle cfg n rest (i + 1)
      (next.1, tempPath cfg (i + 1) :: next.2.1, conv.2 ++ pace ++ next.2.2)

/-- The single generic message thrown when anything in the merge `try`
block fails (src/index.js line 330). -/
def mergeFailMessage : String :=
  "Failed to merge audio files. Please ensure ffmpeg is installed on your system."

/-- `convertTextToSpeech` (src/index.js lines 334-409): chunk the text; a
single chunk is synthesised directly (no retry) and written straight to
the final output path; multiple chunks go through the sequential loop and
then the merger (modelled here by the `mergeCall` event whose success is
`ffmpegOk`).  Every thrown error passes the top-level dispatch. -/
def convertTextToSpeech (oracle : Nat → Nat → ApiOutcome) (cfg : Config)
    (ffmpegOk : Bool) (text : Str) : Except JsError Unit × List Event :=
  let chunks := chunkText text
  if chunks.length = 1 then
    match oracle 1 1 with
    | .success => (.ok (), [.apiCall text 1 1, .writeFile (outputPath cfg)])
    | .failure e => (.error (dispatchError e), [.apiCall text 1 1])
  else
    let r := chunkLoop oracle cfg chunks.length chunks 0
    match r.1 with
    | .error e => (.error (dispatchError (e.getD ⟨none, ""⟩)), r.2.2)
    | .ok _ =>
      let evs := r.2.2 ++ [Event.mergeCall r.2.1 (outputPath cfg)]
      if ffmpegOk then (.ok (), evs)
      else (.error (dispatchError ⟨none, mergeFailMessage⟩), evs)

/-- File system state: the set of existing paths (duplicate-free list). -/
abbrev FileSys := List String

/-- `fs.writeFile`: create or overwrite a file. -/
def fsWrite (fs : FileSys) (p : String) : FileSys :=
  if p ∈ fs then fs else p :: fs

/-- `fs.unlink`: delete a file; rejects when the file does not exist. -/
def fsUnlink (fs : FileSys) (p : String) : Except Unit FileSys :=
  if p ∈ fs then .ok (fs.erase p) else .error ()

/-- Delete paths in order; on the first failure report the file system at
that point with the failure flag `false`. -/
def unlinkAll (fs : FileSys) : List String → FileSys × Bool
  | [] => (fs, true)
  | p :: ps =>
    match fsUnlink fs p with
    | .ok fs2 => unlinkAll fs2 ps
    | .error _ => (fs, false)

/-- The ffmpeg concat manifest file name (src/index.js line 315). -/
def listPath : String := "chunks_list.txt"

/-- `mergeAudioFiles` (src/index.js lines 312-332): write the manifest,
then inside `try`: run ffmpeg (`ffmpegOk`; on success it writes
`outPath`), delete the manifest, delete every fragment.  Any failure in
the `try` block is replaced by the single generic `mergeFailMessage`.
The unused `audioFormat` parameter mirrors the source signature. -/
def mergeAudioFiles (chunkPaths : List String) (outPath : String)
    (_audioFormat : String) (ffmpegOk : Bool) (fs : FileSys) :
    Except String Unit × FileSys :=
  let fs1 := fsWrite fs listPath
  if ffmpegOk then
    let fs2 := fsWrite fs1 outPath
    match fsUnlink fs2 listPath with
    | .error _ => (.error mergeFailMessage, fs2)
    | .ok fs3 =>
      let u := unlinkAll fs3 chunkPaths
      if u.2 then (.ok (), u.1) else (.error mergeFailMessage, u.1)
  else (.error mergeFailMessage, fs1)

theorem convertSingleChunk_allFail (oracle : Nat → Nat → ApiOutcome)
    (cfg : Config) (text : Str) (ci : Nat) (e1 e2 e3 : JsError)
    (h1 : oracle ci 1 = .failure e1) (h2 : oracle ci 2 = .failure e2)
    (h3 : oracle ci 3 = .failure e3) :
    convertSingleChunk oracle cfg text ci 3
      = (.error (some e3),
         [.apiCall text ci 1, .sleep 1000, .apiCall text ci 2, .sleep 2000,
          .apiCall text ci 3]) := by
  simp only [convertSingleChunk, retryLoop, h1, h2, h3]
  norm_num

theorem convertSingleChunk_first_success (oracle : Nat → Nat → ApiOutcome)
    (cfg : Config) (text : Str) (ci : Nat) (h : oracle ci 1 = .success) :
    convertSingleChunk oracle cfg text ci 3
      = (.ok (), [.apiCall text ci 1, .writeFile (tempPath cfg ci)]) := by
  simp only [convertSingleChunk, retryLoop, h]

/-- An error the top-level handler recognises as one of the three
categories: invalid credential, quota exceeded, rate limited. -/
def isCategorized (e : JsError) : Prop :=
  e.code = some "invalid_api_key" ∨ e.code = some "insufficient_quota" ∨
    containsSubstr e.message "rate limit" = true

/-- Claim C5 as stated fails: a rate-limit (categorized) error is retried
like any other error — the converter makes all three attempts instead of
surfacing the error after the first call. -/
theorem categorized_error_consumes_all_retries :
    ((convertSingleChunk (fun _ _ => .failure ⟨none, "rate limit"⟩)
      ⟨"output", "mp3"⟩ ['x'] 1 3).2.filter isApiCall).length = 3 ∧
    ¬ ((convertSingleChunk (fun _ _ => .failure ⟨none, "rate limit"⟩)
      ⟨"output", "mp3"⟩ ['x'] 1 3).2.filter isApiCall).length = 1 := by
  constructor
  · rfl
  · intro h
    rw [show ((convertSingleChunk
        (fun _ _ => ApiOutcome.failure ⟨none, "rate limit"⟩)
        ⟨"output", "mp3"⟩ ['x'] 1 3).2.filter isApiCall).length = 3 from rfl]
      at h
    omega

/-- Claim C5 (amended): a categorized synthesis error is retried like any
other error — all three attempts are consumed and the last error is
thrown — and only then does the top-level dispatch turn it into the
specific, category-distinguishing message. -/
theorem categorized_error_retried_then_dispatched (e : JsError) (cfg : Config)
    (text : Str) (ci : Nat) (h : isCategorized e) :
    ((convertSingleChunk (fun _ _ => .failure e) cfg text ci 3).2.filter
      isApiCall).length = 3 ∧
    (convertSingleChunk (fun _ _ => .failure e) cfg text ci 3).1
      = .error (some e) ∧
    (e.code = some "invalid_api_key" →
      dispatchError e = ⟨none, "Invalid OpenAI API key"⟩) ∧
    (e.code ≠ some "invalid_api_key" → e.code = some "insufficient_quota" →
      dispatchError e = ⟨none, "OpenAI API quota exceeded"⟩) ∧
    (e.code ≠ some "invalid_api_key" → e.code ≠ some "insufficient_quota" →
      containsSubstr e.message "rate limit" = true →
      dispatchError e
        = ⟨none, "OpenAI API rate limit exceeded. Please try again later."⟩) := by
  refine ⟨rfl, rfl, ?_, ?_, ?_⟩
  · intro h1
    rw [dispatchError, if_pos h1]
  · intro h1 h2
    rw [dispatchError, if_neg h1, if_pos h2]
  · intro h1 h2 h3
    rw [dispatchError, if_neg h1, if_neg h2, if_pos h3]

theorem categorized_error_retried_then_dispatched_witness :
    ((convertSingleChunk (fun _ _ => .failure ⟨some "invalid_api_key", "boom"⟩)
      ⟨"output", "mp3"⟩ ['x'] 1 3).2.filter isApiCall).length = 3 ∧
    (convertSingleChunk (fun _ _ => .failure ⟨some "invalid_api_key", "boom"⟩)
      ⟨"output", "mp3"⟩ ['x'] 1 3).1
      = .error (some ⟨some "invalid_api_key", "boom"⟩) ∧
    dispatchError ⟨some "invalid_api_key", "boom"⟩
      = ⟨none, "Invalid OpenAI API key"⟩ := by
  have h := categorized_error_retried_then_dispatched
    ⟨some "invalid_api_key", "boom"⟩ ⟨"output", "mp3"⟩ ['x'] 1
    (Or.inl rfl)
  exact ⟨h.1, h.2.1, h.2.2.1 rfl⟩
theorem chunkLoop_fail_aux (oracle : Nat → Nat → ApiOutcome) (cfg : Config)
    (e1 e2 e3 : JsError) :
    ∀ (cs : List Str) (n i j : Nat), j < cs.length →
    (∀ t, t < j → oracle (i + t + 1) 1 = .success) →
    oracle (i + j + 1) 1 = .failure e1 →
    oracle (i + j + 1) 2 = .failure e2 →
    oracle (i + j + 1) 3 = .failure e3 →
    (chunkLoop oracle cfg n cs i).1 = .error (some e3) ∧
    ∃ pre,
      (chunkLoop oracle cfg n cs i).2.2
        = pre ++ [.apiCall (cs.getD j []) (i + j + 1) 1, .sleep 1000,
            .apiCall (cs.getD j []) (i + j + 1) 2, .sleep 2000,
            .apiCall (cs.getD j []) (i + j + 1) 3] ∧
      (∀ inp k a, Event.apiCall inp k a ∈ pre → k < i + j + 1 ∧ a = 1) := by
  intro cs
  induction cs with
  | nil =>
    intro n i j hj _ _ _ _
    simp at hj
  | cons c rest ih =>
    intro n i j hj hsucc hf1 hf2 hf3
    cases j with
    | zero =>
      have hcall := convertSingleChunk_allFail oracle cfg c (i + 1) e1 e2 e3
        (by simpa using hf1) (by simpa using hf2) (by simpa using hf3)
      rw [chunkLoop, hcall]
      refine ⟨rfl, [], ?_, ?_⟩
      · simp [List.getD]
      · intro inp k a hmem
        simp at hmem
    | succ j1 =>
      have hs0 : oracle (i + 1) 1 = .success := by
        have := hsucc 0 (Nat.succ_pos _)
        simpa using this
      have hcall := convertSingleChunk_first_success oracle cfg c (i + 1) hs0
      have ihsucc : ∀ t, t < j1 → oracle (i + 1 + t + 1) 1 = .success := by
        intro t ht
        have harr : i + 1 + t + 1 = i + (t + 1) + 1 := by omega
        rw [harr]
        exact hsucc (t + 1) (by omega)
      have harr2 : i + 1 + j1 + 1 = i + (j1 + 1) + 1 := by omega
      have ih2 := ih n (i + 1) j1 (by simpa using hj) ihsucc
        (by rw [harr2]; exact hf1) (by rw [harr2]; exact hf2)
        (by rw [harr2]; exact hf3)
      obtain ⟨hres, pre1, htr, hpre⟩ := ih2
      rw [harr2] at htr
      rw [chunkLoop, hcall]
      dsimp only
      constructor
      · exact hres
      · refine ⟨[Event.apiCall c (i + 1) 1, Event.writeFile (tempPath cfg (i + 1))]
          ++ (if i < n - 1 then [Event.sleep 1000] else []) ++ pre1, ?_, ?_⟩
        · rw [List.getD_cons_succ, htr]
          simp [List.append_assoc]
        · intro inp k a hmem
          simp only [List.mem_append, List.mem_cons] at hmem
          rcases hmem with ((h | h) | h) | h
          · simp only [Event.apiCall.injEq] at h
            exact ⟨by omega, h.2.2⟩
          · rcases h with h | h
            · simp at h
            · simp at h
          · split at h <;> simp at h
          · have h2 := hpre inp k a h
            exact ⟨by omega, h2.2⟩

/-- Claim C6: a chunk is attempted at most 3 times, with backoff sleeps of
1000 ms and 2000 ms between the attempts; when all three attempts fail the
loop throws the last error encountered (the third attempt's), aborts, and
never attempts any chunk with a higher index. -/
theorem chunkLoop_bounded_retry_and_abort (oracle : Nat → Nat → ApiOutcome)
    (cfg : Config) (cs : List Str) (j : Nat) (e1 e2 e3 : JsError)
    (hj : j < cs.length)
    (hsucc : ∀ t, t < j → oracle (t + 1) 1 = .success)
    (hf1 : oracle (j + 1) 1 = .failure e1)
    (hf2 : oracle (j + 1) 2 = .failure e2)
    (hf3 : oracle (j + 1) 3 = .failure e3) :
    (chunkLoop oracle cfg cs.length cs 0).1 = .error (some e3) ∧
    (∃ pre,
      (chunkLoop oracle cfg cs.length cs 0).2.2
        = pre ++ [.apiCall (cs.getD j []) (j + 1) 1, .sleep 1000,
            .apiCall (cs.getD j []) (j + 1) 2, .sleep 2000,
            .apiCall (cs.getD j []) (j + 1) 3]) ∧
    (∀ inp k a,
      Event.apiCall inp k a ∈ (chunkLoop oracle cfg cs.length cs 0).2.2 →
        k ≤ j + 1 ∧ 1 ≤ a ∧ a ≤ 3) := by
  have h := chunkLoop_fail_aux oracle cfg e1 e2 e3 cs cs.length 0 j hj
    (by intro t ht; simpa using hsucc t ht)
    (by simpa using hf1) (by simpa using hf2) (by simpa using hf3)
  obtain ⟨hres, pre, htr, hpre⟩ := h
  simp only [Nat.zero_add] at htr hpre
  refine ⟨hres, ⟨pre, htr⟩, ?_⟩
  intro inp k a hmem
  rw [htr] at hmem
  simp only [List.mem_append, List.mem_cons] at hmem
  rcases hmem with h | h | h | h | h | h | h
  · obtain ⟨hk, ha⟩ := hpre inp k a h
    exact ⟨by omega, by omega, by omega⟩
  · simp only [Event.apiCall.injEq] at h
    obtain ⟨_, hk, ha⟩ := h
    exact ⟨by omega, by omega, by omega⟩
  · simp at h
  · simp only [Event.apiCall.injEq] at h
    obtain ⟨_, hk, ha⟩ := h
    exact ⟨by omega, by omega, by omega⟩
  · simp at h
  · simp only [Event.apiCall.injEq] at h
    obtain ⟨_, hk, ha⟩ := h
    exact ⟨by omega, by omega, by omega⟩
  · simp at h

theorem chunkLoop_bounded_retry_and_abort_witness :
    (chunkLoop (fun k _ => if k = 2 then ApiOutcome.failure ⟨none, "rate limit"⟩
        else ApiOutcome.success) ⟨"output", "mp3"⟩ 3 [['a'], ['b'], ['c']] 0).1
      = .error (some ⟨none, "rate limit"⟩) ∧
    (∃ pre,
      (chunkLoop (fun k _ => if k = 2 then ApiOutcome.failure ⟨none, "rate limit"⟩
          else ApiOutcome.success) ⟨"output", "mp3"⟩ 3 [['a'], ['b'], ['c']] 0).2.2
        = pre ++ [.apiCall ['b'] 2 1, .sleep 1000, .apiCall ['b'] 2 2,
            .sleep 2000, .apiCall ['b'] 2 3]) ∧
    (∀ inp k a,
      Event.apiCall inp k a ∈ (chunkLoop
        (fun k _ => if k = 2 then ApiOutcome.failure ⟨none, "rate limit"⟩
          else ApiOutcome.success) ⟨"output", "mp3"⟩ 3 [['a'], ['b'], ['c']] 0).2.2 →
        k ≤ 2 ∧ 1 ≤ a ∧ a ≤ 3) :=
  chunkLoop_bounded_retry_and_abort _ _ [['a'], ['b'], ['c']] 1 _ _ _
    (by norm_num)
    (by
      intro t ht
      have h0 : t = 0 := Nat.lt_one_iff.mp ht
      subst h0
      rfl)
    rfl rfl rfl

/-- Fragment paths produced by an all-success run, in chunk order. -/
def successPaths (cfg : Config) : List Str → Nat → List String
  | [], _ => []
  | _ :: rest, i => tempPath cfg (i + 1) :: successPaths cfg rest (i + 1)

/-- Event interleaving of an all-success run: for each chunk in index order
one synthesis call (attempt 1) and the fragment write, then a 1000 ms
pacing sleep unless the chunk is the last (`i < n - 1` fails). -/
def successTrace (cfg : Config) (n : Nat) : List Str → Nat → List Event
  | [], _ => []
  | c :: rest, i =>
    [Event.apiCall c (i + 1) 1, Event.writeFile (tempPath cfg (i + 1))]
      ++ (if i < n - 1 then [Event.sleep 1000] else [])
      ++ successTrace cfg n rest (i + 1)

theorem chunkLoop_success_aux (oracle : Nat → Nat → ApiOutcome) (cfg : Config)
    (n : Nat) :
    ∀ (cs : List Str) (i : Nat),
      (∀ k, i < k → k ≤ i + cs.length → oracle k 1 = .success) →
      chunkLoop oracle cfg n cs i
        = (.ok (), successPaths cfg cs i, successTrace cfg n cs i) := by
  intro cs
  induction cs with
  | nil => intro i _; rfl
  | cons c rest ih =>
    intro i h
    have hlen : (c :: rest).length = rest.length + 1 := List.length_cons ..
    have hs : oracle (i + 1) 1 = .success :=
      h (i + 1) (by omega) (by rw [hlen]; omega)
    rw [chunkLoop, convertSingleChunk_first_success oracle cfg c (i + 1) hs]
    dsimp only
    rw [ih (i + 1) (fun k hk1 hk2 => h k (by omega) (by rw [hlen]; omega))]
    rw [successPaths, successTrace]

/-- Claim C8: with more than one chunk and every synthesis call
succeeding, chunks are converted strictly sequentially in index order —
the run's trace is exactly one attempt-1 call and fragment write per
chunk, with a fixed 1000 ms pacing sleep after each conversion except the
last one. -/
theorem chunkLoop_sequential_with_pacing (oracle : Nat → Nat → ApiOutcome)
    (cfg : Config) (cs : List Str) (hn : 1 < cs.length)
    (hs : ∀ k, 1 ≤ k → k ≤ cs.length → oracle k 1 = .success) :
    chunkLoop oracle cfg cs.length cs 0
      = (.ok (), successPaths cfg cs 0, successTrace cfg cs.length cs 0) :=
  chunkLoop_success_aux oracle cfg cs.length cs 0
    (fun k hk1 hk2 => hs k (by omega) (by omega))

theorem chunkLoop_sequential_with_pacing_witness :
    chunkLoop (fun _ _ => ApiOutcome.success) ⟨"output", "mp3"⟩ 3
        [['a'], ['b'], ['c']] 0
      = (.ok (), ["output_chunk_1.mp3", "output_chunk_2.mp3",
          "output_chunk_3.mp3"],
         [.apiCall ['a'] 1 1, .writeFile "output_chunk_1.mp3", .sleep 1000,
          .apiCall ['b'] 2 1, .writeFile "output_chunk_2.mp3", .sleep 1000,
          .apiCall ['c'] 3 1, .writeFile "output_chunk_3.mp3"]) := by
  rw [show (3 : Nat) = [['a'], ['b'], ['c']].length from rfl,
    chunkLoop_sequential_with_pacing (fun _ _ => ApiOutcome.success)
      ⟨"output", "mp3"⟩ [['a'], ['b'], ['c']] (by norm_num)
      (fun k hk1 hk2 => rfl)]
  rfl

/-- Claim C9: when the text chunks to a single chunk and the synthesis
call succeeds, the orchestrator performs exactly one synthesis call and
writes the bytes directly to the final output path
`output.audioFormat`; no fragment file is written and the merger is never
invoked. -/
theorem convertTextToSpeech_single_chunk_direct (oracle : Nat → Nat → ApiOutcome)
    (cfg : Config) (ffmpegOk : Bool) (text : Str)
    (h1 : (chunkText text).length = 1) (h2 : oracle 1 1 = .success) :
    convertTextToSpeech oracle cfg ffmpegOk text
      = (.ok (), [.apiCall text 1 1, .writeFile (outputPath cfg)]) ∧
    ((convertTextToSpeech oracle cfg ffmpegOk text).2.filter isApiCall).length
      = 1 ∧
    (∀ p, Event.writeFile p ∈ (convertTextToSpeech oracle cfg ffmpegOk text).2 →
      p = outputPath cfg) ∧
    (∀ ps op,
      Event.mergeCall ps op ∉ (convertTextToSpeech oracle cfg ffmpegOk text).2) := by
  have hmain : convertTextToSpeech oracle cfg ffmpegOk text
      = (.ok (), [.apiCall text 1 1, .writeFile (outputPath cfg)]) := by
    rw [convertTextToSpeech]
    dsimp only
    rw [if_pos h1, h2]
  refine ⟨hmain, ?_, ?_, ?_⟩
  · rw [hmain]
    rfl
  · intro p hp
    rw [hmain] at hp
    simp only [List.mem_cons, List.not_mem_nil] at hp
    rcases hp with h | h | h
    · exact absurd h (by simp)
    · simpa using h
    · exact absurd h (by simp)
  · intro ps op hmem
    rw [hmain] at hmem
    simp at hmem

theorem convertTextToSpeech_single_chunk_direct_witness :
    convertTextToSpeech (fun _ _ => ApiOutcome.success) ⟨"output", "mp3"⟩ true
        ['h', 'i']
      = (.ok (), [.apiCall ['h', 'i'] 1 1, .writeFile "output.mp3"]) ∧
    ((convertTextToSpeech (fun _ _ => ApiOutcome.success) ⟨"output", "mp3"⟩ true
        ['h', 'i']).2.filter isApiCall).length = 1 ∧
    (∀ p, Event.writeFile p ∈ (convertTextToSpeech
        (fun _ _ => ApiOutcome.success) ⟨"output", "mp3"⟩ true ['h', 'i']).2 →
      p = "output.mp3") ∧
    (∀ ps op, Event.mergeCall ps op ∉ (convertTextToSpeech
        (fun _ _ => ApiOutcome.success) ⟨"output", "mp3"⟩ true ['h', 'i']).2) :=
  convertTextToSpeech_single_chunk_direct (fun _ _ => ApiOutcome.success)
    ⟨"output", "mp3"⟩ true ['h', 'i'] (by decide) rfl

theorem unlinkAll_success :
    ∀ (ps : List String) (fs : FileSys), ps.Nodup → (∀ p ∈ ps, p ∈ fs) →
      fs.Nodup →
      (unlinkAll fs ps).2 = true ∧
      (∀ q, q ∈ (unlinkAll fs ps).1 ↔ q ∈ fs ∧ q ∉ ps) := by
  intro ps
  induction ps with
  | nil =>
    intro fs _ _ _
    refine ⟨rfl, ?_⟩
    intro q
    simp [unlinkAll]
  | cons p ps ih =>
    intro fs hnd hsub hfs
    have hp : p ∈ fs := hsub p (List.mem_cons_self ..)
    obtain ⟨hpps, hndps⟩ := List.nodup_cons.mp hnd
    have hsub2 : ∀ q ∈ ps, q ∈ fs.erase p := by
      intro q hq
      have hne : q ≠ p := fun he => hpps (he ▸ hq)
      exact (List.mem_erase_of_ne hne).mpr (hsub q (List.mem_cons_of_mem _ hq))
    have hstep : unlinkAll fs (p :: ps) = unlinkAll (fs.erase p) ps := by
      rw [unlinkAll, fsUnlink, if_pos hp]
    obtain ⟨ht, hiff⟩ := ih (fs.erase p) hndps hsub2 (hfs.erase p)
    rw [hstep]
    refine ⟨ht, ?_⟩
    intro q
    rw [hiff q, List.Nodup.mem_erase_iff hfs]
    constructor
    · rintro ⟨⟨hne, hin⟩, hnin⟩
      refine ⟨hin, ?_⟩
      intro hc
      rcases List.mem_cons.mp hc with h | h
      · exact hne h
      · exact hnin h
    · rintro ⟨hin, hnin⟩
      have hne : q ≠ p := fun he => hnin (he ▸ List.mem_cons_self ..)
      exact ⟨⟨hne, hin⟩, fun hc => hnin (List.mem_cons_of_mem _ hc)⟩

/-- Claim C7: when the external concatenation succeeds the merger deletes
the manifest and every fragment (the merged output exists afterwards);
when it fails the merger raises exactly the one generic
install-ffmpeg message and deletes nothing — the manifest it just wrote
and all fragments remain on disk. -/
theorem mergeAudioFiles_cleanup_and_failure (chunkPaths : List String)
    (outP fmt : String) (fs : FileSys)
    (hnd : chunkPaths.Nodup) (hsub : ∀ p ∈ chunkPaths, p ∈ fs)
    (hlfs : listPath ∉ fs) (hout : outP ∉ chunkPaths) (hofs : outP ∉ fs)
    (hol : outP ≠ listPath) (hfs : fs.Nodup) :
    ((mergeAudioFiles chunkPaths outP fmt true fs).1 = .ok () ∧
      listPath ∉ (mergeAudioFiles chunkPaths outP fmt true fs).2 ∧
      (∀ p ∈ chunkPaths, p ∉ (mergeAudioFiles chunkPaths outP fmt true fs).2) ∧
      outP ∈ (mergeAudioFiles chunkPaths outP fmt true fs).2) ∧
    (mergeAudioFiles chunkPaths outP fmt false fs
        = (.error mergeFailMessage, listPath :: fs) ∧
      listPath ∈ (mergeAudioFiles chunkPaths outP fmt false fs).2 ∧
      (∀ p ∈ chunkPaths, p ∈ (mergeAudioFiles chunkPaths outP fmt false fs).2) ∧
      (∀ q ∈ fs, q ∈ (mergeAudioFiles chunkPaths outP fmt false fs).2)) := by
  have hw1 : fsWrite fs listPath = listPath :: fs := by
    rw [fsWrite, if_neg hlfs]
  have houtfs1 : outP ∉ listPath :: fs := by
    intro hc
    rcases List.mem_cons.mp hc with h | h
    · exact hol h
    · exact hofs h
  have hw2 : fsWrite (listPath :: fs) outP = outP :: listPath :: fs := by
    rw [fsWrite, if_neg houtfs1]
  have herase : (outP :: listPath :: fs).erase listPath = outP :: fs := by
    rw [List.erase_cons_tail (by simp [hol]), List.erase_cons_head]
  have hunl : fsUnlink (outP :: listPath :: fs) listPath = .ok (outP :: fs) := by
    rw [fsUnlink, if_pos (by simp), herase]
  have hfs3 : (outP :: fs).Nodup := List.nodup_cons.mpr ⟨hofs, hfs⟩
  have hsub3 : ∀ p ∈ chunkPaths, p ∈ outP :: fs := by
    intro p hp
    exact List.mem_cons_of_mem _ (hsub p hp)
  obtain ⟨hut, huiff⟩ := unlinkAll_success chunkPaths (outP :: fs) hnd hsub3 hfs3
  have hmergeT : mergeAudioFiles chunkPaths outP fmt true fs
      = (.ok (), (unlinkAll (outP :: fs) chunkPaths).1) := by
    rw [mergeAudioFiles]
    dsimp only
    rw [hw1, hw2, hunl]
    dsimp only
    rw [if_pos hut]
    rfl
  have hmergeF : mergeAudioFiles chunkPaths outP fmt false fs
      = (.error mergeFailMessage, listPath :: fs) := by
    rw [mergeAudioFiles]
    dsimp only
    rw [hw1]
    rfl
  constructor
  · refine ⟨by rw [hmergeT], ?_, ?_, ?_⟩
    · rw [hmergeT]
      intro hc
      have := (huiff listPath).mp hc
      rcases List.mem_cons.mp this.1 with h | h
      · exact hol h.symm
      · exact hlfs h
    · intro p hp
      rw [hmergeT]
      intro hc
      exact ((huiff p).mp hc).2 hp
    · rw [hmergeT]
      exact (huiff outP).mpr ⟨List.mem_cons_self .., hout⟩
  · refine ⟨hmergeF, ?_, ?_, ?_⟩
    · rw [hmergeF]
      exact List.mem_cons_self ..
    · intro p hp
      rw [hmergeF]
      exact List.mem_cons_of_mem _ (hsub p hp)
    · intro q hq
      rw [hmergeF]
      exact List.mem_cons_of_mem _ hq

theorem mergeAudioFiles_cleanup_and_failure_witness :
    ((mergeAudioFiles ["output_chunk_1.mp3", "output_chunk_2.mp3"] "output.mp3"
        "mp3" true ["output_chunk_1.mp3", "output_chunk_2.mp3"]).1 = .ok () ∧
      listPath ∉ (mergeAudioFiles ["output_chunk_1.mp3", "output_chunk_2.mp3"]
        "output.mp3" "mp3" true ["output_chunk_1.mp3", "output_chunk_2.mp3"]).2 ∧
      (∀ p ∈ ["output_chunk_1.mp3", "output_chunk_2.mp3"],
        p ∉ (mergeAudioFiles ["output_chunk_1.mp3", "output_chunk_2.mp3"]
          "output.mp3" "mp3" true
          ["output_chunk_1.mp3", "output_chunk_2.mp3"]).2) ∧
      "output.mp3" ∈ (mergeAudioFiles ["output_chunk_1.mp3", "output_chunk_2.mp3"]
        "output.mp3" "mp3" true ["output_chunk_1.mp3", "output_chunk_2.mp3"]).2) ∧
    (mergeAudioFiles ["output_chunk_1.mp3", "output_chunk_2.mp3"] "output.mp3"
        "mp3" false ["output_chunk_1.mp3", "output_chunk_2.mp3"]
      = (.error mergeFailMessage,
         listPath :: ["output_chunk_1.mp3", "output_chunk_2.mp3"]) ∧
      listPath ∈ (mergeAudioFiles ["output_chunk_1.mp3", "output_chunk_2.mp3"]
        "output.mp3" "mp3" false ["output_chunk_1.mp3", "output_chunk_2.mp3"]).2 ∧
      (∀ p ∈ ["output_chunk_1.mp3", "output_chunk_2.mp3"],
        p ∈ (mergeAudioFiles ["output_chunk_1.mp3", "output_chunk_2.mp3"]
          "output.mp3" "mp3" false
          ["output_chunk_1.mp3", "output_chunk_2.mp3"]).2) ∧
      (∀ q ∈ ["output_chunk_1.mp3", "output_chunk_2.mp3"],
        q ∈ (mergeAudioFiles ["output_chunk_1.mp3", "output_chunk_2.mp3"]
          "output.mp3" "mp3" false
          ["output_chunk_1.mp3", "output_chunk_2.mp3"]).2)) :=
  mergeAudioFiles_cleanup_and_failure
    ["output_chunk_1.mp3", "output_chunk_2.mp3"] "output.mp3" "mp3"
    ["output_chunk_1.mp3", "output_chunk_2.mp3"]
    (by decide) (by decide) (by decide) (by decide) (by decide) (by decide)
    (by decide)

/-- Claim C10 as stated fails: an error whose message contains both
"rate limit" and "ffmpeg" is not re-thrown unchanged — the earlier
rate-limit test wins and replaces it. -/
theorem dispatchError_ffmpeg_shadowed_by_rate_limit :
    containsSubstr "rate limit ffmpeg" "ffmpeg" = true ∧
    dispatchError ⟨none, "rate limit ffmpeg"⟩ ≠ ⟨none, "rate limit ffmpeg"⟩ ∧
    dispatchError ⟨none, "rate limit ffmpeg"⟩
      = ⟨none, "OpenAI API rate limit exceeded. Please try again later."⟩ := by
  refine ⟨by decide, by decide, by decide⟩

/-- Claim C10 (amended): an error that is not matched by any earlier test
(codes `invalid_api_key` and `insufficient_quota`, message containing
"rate limit") is re-thrown unchanged when its message contains "ffmpeg",
and otherwise replaced by a new error with message
"OpenAI API error: " followed by the original message. -/
theorem dispatchError_ffmpeg_rethrow_or_wrap (e : JsError)
    (h1 : e.code ≠ some "invalid_api_key")
    (h2 : e.code ≠ some "insufficient_quota")
    (h3 : ¬ containsSubstr e.message "rate limit" = true) :
    (containsSubstr e.message "ffmpeg" = true → dispatchError e = e) ∧
    (¬ containsSubstr e.message "ffmpeg" = true →
      dispatchError e = ⟨none, "OpenAI API error: " ++ e.message⟩) := by
  constructor
  · intro h4
    rw [dispatchError, if_neg h1, if_neg h2, if_neg h3, if_pos h4]
  · intro h4
    rw [dispatchError, if_neg h1, if_neg h2, if_neg h3, if_neg h4]

theorem dispatchError_ffmpeg_rethrow_or_wrap_witness :
    dispatchError ⟨none, "boom ffmpeg"⟩ = ⟨none, "boom ffmpeg"⟩ ∧
    dispatchError ⟨none, "boom"⟩ = ⟨none, "OpenAI API error: " ++ "boom"⟩ :=
  ⟨(dispatchError_ffmpeg_rethrow_or_wrap ⟨none, "boom ffmpeg"⟩ (by decide)
      (by decide) (by decide)).1 (by decide),
   (dispatchError_ffmpeg_rethrow_or_wrap ⟨none, "boom"⟩ (by decide)
      (by decide) (by decide)).2 (by decide)⟩
